import Mathlib

/-!
Shallow embedding of the mengproject repository: the Gamma-subordinator path
simulator (gamma_proc.py) and the Rao-Blackwellised particle filter
(src/particlefilter.py).

Conventions of the embedding:
* Machine floats become exact reals; np.nan_to_num is the identity on reals.
* Randomness is passed explicitly: inter-arrival gaps and uniform draws for the
  subordinator, standard-normal vectors and multinomial count vectors for the
  filter.  A stream `Nat → _` models sequential consumption of the global numpy
  random state.
* External collaborators that are not part of this repository (the process.py
  state-space model provider and numpy Cholesky factorization) are abstracted
  as a `Providers` record of pure functions, as the spec describes them.
* Helpers from functions.py (gen_poisson_epochs, accept, sort_jumps) are code
  of the repository missing from src/ and are modelled from the spec; their
  doc comments say so.
-/

set_option linter.unusedVariables false

open Matrix

/-! ## Generic numeric helpers -/

/-- np.max over a list of reals; numpy errors on an empty array, here the
empty case returns the junk value 0 (all uses are guarded by nonemptiness). -/
noncomputable def npMax : List ℝ → ℝ
  | [] => 0
  | x :: xs => xs.foldl max x

/-- logsumexp from src/particlefilter.py lines 8-13: c = np.max(x);
c + np.log(np.sum(np.exp(x - c))). -/
noncomputable def logsumexp (x : List ℝ) : ℝ :=
  npMax x + Real.log ((x.map (fun xi => Real.exp (xi - npMax x))).sum)

/-- The naive, unstabilized log-sum-exp, log(sum of exp(x_i)), written exactly
as the claim states it, for the refinement comparison with `logsumexp`. -/
noncomputable def naive_logsumexp (x : List ℝ) : ℝ :=
  Real.log ((x.map Real.exp).sum)

/-- Running cumulative sums starting from an accumulator. -/
def cumsumFrom (acc : ℝ) : List ℝ → List ℝ
  | [] => []
  | x :: xs => (acc + x) :: cumsumFrom (acc + x) xs

/-- np.cumsum on a list of reals: cumsum [a, b, c] = [a, a+b, a+b+c]. -/
def cumsum (l : List ℝ) : List ℝ := cumsumFrom 0 l

/-! ## Subordinator path simulator (gamma_proc.py) -/

/-- Modelled from the spec: `gen_poisson_epochs` lives in functions.py, which
is not under src/.  Spec section 4.1 step 1 and section 6: given rate and count it
returns an ascending sequence of Poisson epochs.  The randomness is the list
of positive exponential inter-arrival gaps; the epochs are their cumulative
sums scaled by the rate. -/
noncomputable def gen_poisson_epochs (rate : ℝ) (gaps : List ℝ) : List ℝ :=
  (cumsum gaps).map (fun e => e / rate)

/-- Ordering of (time, jump) pairs by their time component. -/
def timeLE (p q : ℝ × ℝ) : Prop := p.1 ≤ q.1

noncomputable instance : DecidableRel timeLE :=
  fun p q => inferInstanceAs (Decidable (p.1 ≤ q.1))

instance : IsTotal (ℝ × ℝ) timeLE := ⟨fun a b => le_total a.1 b.1⟩

instance : IsTrans (ℝ × ℝ) timeLE := ⟨fun _ _ _ hab hbc => le_trans hab hbc⟩

/-- Modelled from the spec: `accept` lives in functions.py, which is not under
src/.  Spec section 4.1 step 3: accept each candidate independently via one
uniform(0,1) draw per candidate (Bernoulli thinning); a candidate is kept when
its uniform draw falls below its acceptance probability. -/
noncomputable def accept (x acceps us : List ℝ) : List ℝ :=
  ((x.zip acceps).zip us).filterMap
    (fun p => if p.2 < p.1.2 then some p.1.1 else none)

/-- Modelled from the spec: `sort_jumps` lives in functions.py, which is not
under src/.  Spec section 4.1 step 5: sort the (time, size) pairs ascending by
time; returns the sorted times together with the correspondingly reordered
jump sizes. -/
noncomputable def sort_jumps (times jumps : List ℝ) : List ℝ × List ℝ :=
  let pairs := (times.zip jumps).insertionSort timeLE
  (pairs.map Prod.fst, pairs.map Prod.snd)

/-- gen_gamma_process from gamma_proc.py lines 6-25.  The randomness is
explicit: `gaps` are the positive inter-arrival gaps behind the `samps`
Poisson epochs, `us` the uniform acceptance draws, `uts` the uniform time
draws (np.random.rand, values in [0,1)).  Times are drawn in [0, maxT]
(maxT * np.random.rand), i.e. the window starts at 0, exactly as in the
source and in spec section 4.1 step 4. -/
noncomputable def gen_gamma_process (c beta rate : ℝ) (samps : ℕ) (maxT : ℝ)
    (gaps us uts : List ℝ) : List ℝ × List ℝ :=
  let es := gen_poisson_epochs rate gaps
  let x := es.map (fun e => 1 / (beta * (Real.exp (e / c) - 1)))
  let acceps := x.map (fun xi => (1 + beta * xi) * Real.exp (-(beta * xi)))
  let accepted := accept x acceps us
  let times := uts.map (fun u => maxT * u)
  let tj := sort_jumps times accepted
  (tj.1, cumsum tj.2)

/-! ## External collaborators (process.py and numpy linalg) -/

/-- Modelled from the spec: the state-space model provider (process.py, not
under src/) and numpy Cholesky factorization, abstracted as pure functions as
spec section 6 describes them: transition builder A(m, dt), observation row
vector H, noise/input matrix B, and Cholesky factors for the 2x2 and 3x3
ridge-stabilized covariances. -/
structure Providers where
  A_matrix : (Fin 2 → ℝ) → ℝ → Matrix (Fin 3) (Fin 3) ℝ
  H : Fin 3 → ℝ
  B : Matrix (Fin 3) (Fin 2) ℝ
  chol2 : Matrix (Fin 2) (Fin 2) ℝ → Matrix (Fin 2) (Fin 2) ℝ
  chol3 : Matrix (Fin 3) (Fin 3) ℝ → Matrix (Fin 3) (Fin 3) ℝ

/-- The per-particle, per-step external inputs of one predict call: the
moment functionals langevin_m and langevin_S evaluated on the freshly drawn
subordinator path (process.py, not under src/), and the standard-normal
innovation draw np.random.randn(2). -/
structure StepDraw where
  mvec : Fin 2 → ℝ
  Sraw : Matrix (Fin 2) (Fin 2) ℝ
  eps : Fin 2 → ℝ

/-! ## Filter particle (src/particlefilter.py lines 16-120) -/

/-- LangevinParticle state: model parameters, Kalman sufficient statistics
acc/Ccc, the carried state sample alpha, the log particle weight, and the
precomputed H and B matrices. -/
structure LangevinParticle where
  theta : ℝ
  kv : ℝ
  beta : ℝ
  sigmasq : ℝ
  gsamps : ℕ
  acc : Fin 3 → ℝ
  Ccc : Matrix (Fin 3) (Fin 3) ℝ
  alpha : Fin 3 → ℝ
  logweight : ℝ
  Hmat : Fin 3 → ℝ
  Bmat : Matrix (Fin 3) (Fin 2) ℝ

/-- LangevinParticle.__init__ (lines 20-45): acc = (0,0,mumu),
Ccc = diag(0,0,sigmasq*kw), alpha = acc + cholesky(Ccc + 1e-12 I) @ z with z
the standard-normal draw, and logweight = 0. -/
noncomputable def LangevinParticle.init (pr : Providers)
    (mumu sigmasq beta kw kv theta : ℝ) (gsamps : ℕ) (z : Fin 3 → ℝ) :
    LangevinParticle :=
  let acc : Fin 3 → ℝ := ![0, 0, mumu]
  let Ccc : Matrix (Fin 3) (Fin 3) ℝ :=
    Matrix.of ![![0, 0, 0], ![0, 0, 0], ![0, 0, sigmasq * kw]]
  let Cc := pr.chol3 (Ccc + (1e-12 : ℝ) • (1 : Matrix (Fin 3) (Fin 3) ℝ))
  { theta := theta, kv := kv, beta := beta, sigmasq := sigmasq,
    gsamps := gsamps, acc := acc, Ccc := Ccc,
    alpha := fun i => acc i + (Cc *ᵥ z) i,
    logweight := 0, Hmat := pr.H, Bmat := pr.B }

/-- LangevinParticle.predict (lines 55-80): simulate a fresh subordinator
path (its influence arrives through the moment draws d.mvec, d.Sraw), scale S
by sigmasq, form the innovation via the ridge-stabilized Cholesky factor,
build A(m, dt), update the carried state sample and propagate the Kalman
prediction.  Returns (acp, Ccp, new alpha). -/
noncomputable def LangevinParticle.predict (pr : Providers)
    (p : LangevinParticle) (s t : ℝ) (d : StepDraw) :
    (Fin 3 → ℝ) × Matrix (Fin 3) (Fin 3) ℝ × (Fin 3 → ℝ) :=
  let dt := t - s
  let m := d.mvec
  let S := p.sigmasq • d.Sraw
  let Sc := pr.chol2 (S + (1e-12 : ℝ) • (1 : Matrix (Fin 2) (Fin 2) ℝ))
  let e := Sc *ᵥ d.eps
  let Amat := pr.A_matrix m dt
  (Amat *ᵥ p.acc,
   Amat * p.Ccc * Amat.transpose + p.Bmat * S * p.Bmat.transpose,
   fun i => (Amat *ᵥ p.alpha) i + (p.Bmat *ᵥ e) i)

/-- LangevinParticle.correct (lines 83-92): Kalman gain and correction. -/
noncomputable def LangevinParticle.correct (p : LangevinParticle)
    (observation : ℝ) (acp : Fin 3 → ℝ) (Ccp : Matrix (Fin 3) (Fin 3) ℝ) :
    (Fin 3 → ℝ) × Matrix (Fin 3) (Fin 3) ℝ :=
  let K : Fin 3 → ℝ :=
    fun i => (Ccp *ᵥ p.Hmat) i / (p.Hmat ⬝ᵥ (Ccp *ᵥ p.Hmat) + p.sigmasq * p.kv)
  (fun i => acp i + K i * (observation - p.Hmat ⬝ᵥ acp),
   Ccp - Matrix.vecMulVec K p.Hmat * Ccp)

/-- LangevinParticle.log_ped (lines 95-103): the one-step prediction error
decomposition, a Gaussian log density with mean H acp and variance
H Ccp H^T + sigmasq * kv. -/
noncomputable def LangevinParticle.log_ped (p : LangevinParticle)
    (observation : ℝ) (acp : Fin 3 → ℝ) (Ccp : Matrix (Fin 3) (Fin 3) ℝ) : ℝ :=
  let ayt := p.Hmat ⬝ᵥ acp
  let Cyt := p.Hmat ⬝ᵥ (Ccp *ᵥ p.Hmat) + p.sigmasq * p.kv
  let res := -(0.5 : ℝ) * Real.log (2 * Real.pi * Cyt) -
    (1 / (2 * Cyt)) * (observation - ayt) ^ 2
  res

/-- The log_ped value produced inside one increment call: log_ped evaluated
at the predict outputs.  exp of this value is the particle's one-step
predictive density. -/
noncomputable def LangevinParticle.step_log_ped (pr : Providers)
    (p : LangevinParticle) (observation s t : ℝ) (d : StepDraw) : ℝ :=
  p.log_ped observation (p.predict pr s t d).1 (p.predict pr s t d).2.1

/-- LangevinParticle.increment (lines 106-120): predict, correct, then add
the log prediction error decomposition to the running log weight.  The
Timedelta-to-seconds conversion is an adapter concern and does not appear in
the real-valued embedding. -/
noncomputable def LangevinParticle.increment (pr : Providers)
    (p : LangevinParticle) (observation s t : ℝ) (d : StepDraw) :
    LangevinParticle :=
  let pred := p.predict pr s t d
  let corr := p.correct observation pred.1 pred.2.1
  { p with
    acc := corr.1
    Ccc := corr.2
    alpha := pred.2.2
    logweight := p.logweight + p.log_ped observation pred.1 pred.2.1 }

/-- Maps a list through a function that also consumes one element of a
stream per list element, modelling the sequential consumption of the global
numpy random stream by a Python for-loop. -/
def mapStream {α β γ : Type} (f : α → γ → β) : List α → (ℕ → γ) → List β
  | [], _ => []
  | a :: rest, s => f a (s 0) :: mapStream f rest (fun i => s (i + 1))

/-! ## Particle-population engine (src/particlefilter.py lines 123-280) -/

/-- RBPF state: transformed series, observation cursor (the Python
generators become the remaining-suffix lists), particle count, resampling
threshold, marginal-likelihood accumulator and the particle population. -/
structure RBPF where
  times : List ℝ
  prices : List ℝ
  nobservations : ℕ
  initial_time : ℝ
  initial_price : ℝ
  current_time : ℝ
  current_price : ℝ
  remaining_times : List ℝ
  remaining_prices : List ℝ
  N : ℕ
  log_resample_limit : ℝ
  log_marginal_likelihood : ℝ
  particles : List LangevinParticle

/-- RBPF.__init__ (lines 125-155): zero-base the series against the first
observation, consume the first observation as the cursor initialization, set
log_resample_limit = log(N * epsilon), and build N particles, each with its
own initial standard-normal draw zs i.  No parameter validation is performed
anywhere in the constructor. -/
noncomputable def RBPF.init (pr : Providers) (mumu sigmasq beta kw kv theta : ℝ)
    (times prices : List ℝ) (N : ℕ) (gsamps : ℕ) (epsilon : ℝ)
    (zs : ℕ → Fin 3 → ℝ) : RBPF :=
  let initial_time := times.headD 0
  let initial_price := prices.headD 0
  let times1 := times.map (fun t => t - initial_time)
  let prices1 := prices.map (fun p => p - initial_price)
  { times := times1, prices := prices1,
    nobservations := times.length,
    initial_time := initial_time, initial_price := initial_price,
    current_time := times1.headD 0, current_price := prices1.headD 0,
    remaining_times := times1.tail, remaining_prices := prices1.tail,
    N := N,
    log_resample_limit := Real.log ((N : ℝ) * epsilon),
    log_marginal_likelihood := 0,
    particles := (List.range N).map
      (fun i => LangevinParticle.init pr mumu sigmasq beta kw kv theta gsamps (zs i)) }

/-- RBPF.reweight_particles (lines 158-167): subtract the log-sum-exp of all
log weights from each log weight. -/
noncomputable def RBPF.reweight_particles (st : RBPF) : RBPF :=
  let lweights := st.particles.map (fun q => q.logweight)
  let sum_weights := logsumexp lweights
  { st with particles :=
      st.particles.map (fun q => { q with logweight := q.logweight - sum_weights }) }

/-- RBPF.increment_particles (lines 170-181): advance the price and time
generators, then increment every particle with the new observation over
(previous time, new time).  An exhausted generator (StopIteration, the spec's
defensive ExhaustionError) is modelled as the identity; the run_filter loop
bound prevents it from being reached. -/
noncomputable def RBPF.increment_particles (pr : Providers) (st : RBPF)
    (draws : ℕ → StepDraw) : RBPF :=
  match st.remaining_prices, st.remaining_times with
  | price :: prest, time :: trest =>
    { st with
      current_price := price
      current_time := time
      remaining_prices := prest
      remaining_times := trest
      particles := mapStream
        (fun q d => q.increment pr price st.current_time time d)
        st.particles draws }
  | _, _ => st

/-- The offspring-materialization loop of resample_particles (lines 198-207):
for each original index in order, append the particle selections[idx] times.
copy.copy at the value level is the value itself; the reference-level shallow
copy semantics is modelled separately below. -/
def materialize_offspring : List ℕ → List LangevinParticle → List LangevinParticle
  | k :: ks, q :: qs => List.replicate k q ++ materialize_offspring ks qs
  | _, _ => []

/-- The linear-weight normalization of resample_particles (lines 189-194):
exponentiate the log weights (np.nan_to_num is the identity on exact reals)
and renormalize to sum to 1.  The multinomial count vector is drawn from
these probabilities. -/
noncomputable def RBPF.resample_probabilities (st : RBPF) : List ℝ :=
  let lweights := st.particles.map (fun q => q.logweight)
  let probabilites := lweights.map Real.exp
  probabilites.map (fun p => p / probabilites.sum)

/-- RBPF.resample_particles (lines 184-211): replace the population by the
materialized offspring of the multinomial count vector `selections` (one
joint draw np.random.multinomial(N, resample_probabilities), supplied as
input), then reset every log weight to -log(N). -/
noncomputable def RBPF.resample_particles (st : RBPF) (selections : List ℕ) : RBPF :=
  let new_particles :=
    (materialize_offspring selections st.particles).map
      (fun q => { q with logweight := -Real.log (st.N : ℝ) })
  { st with particles := new_particles }

/-- RBPF.get_logPn2 (lines 232-237): inverse sum of squares ESS estimator,
-log(sum of exp(2 * logweight)). -/
noncomputable def RBPF.get_logPn2 (st : RBPF) : ℝ :=
  -Real.log ((st.particles.map (fun q => Real.exp (2 * q.logweight))).sum)

/-- RBPF.get_logDninf (lines 240-245): inverse maximum weight ESS estimator,
-max(logweights). -/
noncomputable def RBPF.get_logDninf (st : RBPF) : ℝ :=
  -npMax (st.particles.map (fun q => q.logweight))

/-- RBPF.get_log_predictive_likelihood (lines 248-250): log-sum-exp of the
current log weights. -/
noncomputable def RBPF.get_log_predictive_likelihood (st : RBPF) : ℝ :=
  logsumexp (st.particles.map (fun q => q.logweight))

/-- One iteration of the run_filter loop (lines 253-280): increment the
particles, add the log predictive likelihood of the pre-normalization
weights to the marginal-likelihood accumulator, reweight, then resample
exactly when get_logDninf falls below log_resample_limit. -/
noncomputable def RBPF.run_filter_step (pr : Providers) (st : RBPF)
    (draws : ℕ → StepDraw) (selections : List ℕ) : RBPF :=
  let st1 := st.increment_particles pr draws
  let st2 := { st1 with log_marginal_likelihood :=
      st1.log_marginal_likelihood + st1.get_log_predictive_likelihood }
  let st3 := st2.reweight_particles
  if st3.get_logDninf < st3.log_resample_limit then
    st3.resample_particles selections
  else st3

/-- The state reached inside one run_filter iteration after incrementing,
accumulating the marginal likelihood and reweighting, i.e. just before the
resampling decision is taken (steps 2-4 of spec section 4.3); its particles
carry the normalized log weights that the degeneracy proxy is computed
from. -/
noncomputable def RBPF.pre_resample_state (pr : Providers) (st : RBPF)
    (draws : ℕ → StepDraw) : RBPF :=
  let st1 := st.increment_particles pr draws
  let st2 := { st1 with log_marginal_likelihood :=
      st1.log_marginal_likelihood + st1.get_log_predictive_likelihood }
  st2.reweight_particles

/-- The run_filter loop, iterated over per-iteration randomness. -/
noncomputable def RBPF.run_filter_go (pr : Providers) :
    ℕ → RBPF → (ℕ → (ℕ → StepDraw) × List ℕ) → RBPF
  | 0, st, _ => st
  | k + 1, st, r =>
    RBPF.run_filter_go pr k (st.run_filter_step pr (r 0).1 (r 0).2)
      (fun i => r (i + 1))

/-- RBPF.run_filter (lines 253-280): apply the step to each of the
nobservations - 1 remaining observations; the accumulated log marginal
likelihood lives in the returned state. -/
noncomputable def RBPF.run_filter (pr : Providers) (st : RBPF)
    (r : ℕ → (ℕ → StepDraw) × List ℕ) : RBPF :=
  RBPF.run_filter_go pr (st.nobservations - 1) st r

/-! ## Reference-level (heap) model of the resampling copy

copy.copy produces a new Python object whose attribute dictionary is copied:
the float logweight is an immutable value, while the numpy arrays acc, Ccc
and alpha are mutable objects held by reference, so the copy shares them with
the original.  Arrays live in an explicit heap addressed by naturals. -/

/-- A heap of numpy arrays: address, then flat index, to value. -/
def Heap : Type := ℕ → ℕ → ℝ

/-- Read one entry of the array at address r. -/
def readArr (h : Heap) (r i : ℕ) : ℝ := h r i

/-- In-place mutation of one entry of the array at address r
(the Python assignment arr[i] = v). -/
def writeArr (h : Heap) (r i : ℕ) (v : ℝ) : Heap :=
  fun r' i' => if r' = r ∧ i' = i then v else h r' i'

/-- A particle object at the reference level: the array-valued attributes
acc, Ccc and alpha are heap addresses, the float logweight is a value. -/
structure PParticleRef where
  accRef : ℕ
  CccRef : ℕ
  alphaRef : ℕ
  logweight : ℝ

/-- copy.copy: a new object with the same attribute values - the array
references are shared (shallow copy), the float is copied. -/
def pyCopy (p : PParticleRef) : PParticleRef :=
  { accRef := p.accRef, CccRef := p.CccRef, alphaRef := p.alphaRef,
    logweight := p.logweight }

/-- The offspring-materialization loop of resample_particles at the
reference level: each appended offspring is copy.copy of the selected
particle. -/
def materialize_offspring_refs : List ℕ → List PParticleRef → List PParticleRef
  | k :: ks, q :: qs => List.replicate k (pyCopy q) ++ materialize_offspring_refs ks qs
  | _, _ => []

/-- resample_particles at the reference level: materialize shallow-copied
offspring, then reset every offspring's log weight (a per-object float
assignment, which never touches the heap). -/
noncomputable def resample_particles_refs (N : ℕ) (particles : List PParticleRef)
    (selections : List ℕ) : List PParticleRef :=
  (materialize_offspring_refs selections particles).map
    (fun q => { q with logweight := -Real.log (N : ℝ) })

/-! ## Concrete values used by the witness theorems -/

/-- Trivial external providers (all collaborator functions return zero). -/
def providers0 : Providers :=
  { A_matrix := fun _ _ => 0, H := fun _ => 0, B := 0,
    chol2 := fun _ => 0, chol3 := fun _ => 0 }

/-- A trivial per-step external input. -/
def draw0 : StepDraw := { mvec := fun _ => 0, Sraw := 0, eps := fun _ => 0 }

/-- A concrete particle with zero state and zero log weight. -/
def particle0 : LangevinParticle :=
  { theta := 0, kv := 0, beta := 0, sigmasq := 0, gsamps := 0,
    acc := fun _ => 0, Ccc := 0, alpha := fun _ => 0,
    logweight := 0, Hmat := fun _ => 0, Bmat := 0 }

/-- A concrete one-particle filter state with N = 1 and
log_resample_limit = log(1 * 1). -/
noncomputable def st_c : RBPF :=
  { times := [0], prices := [0], nobservations := 1,
    initial_time := 0, initial_price := 0,
    current_time := 0, current_price := 0,
    remaining_times := [], remaining_prices := [],
    N := 1,
    log_resample_limit := Real.log (((1 : ℕ) : ℝ) * 1),
    log_marginal_likelihood := 0,
    particles := [particle0] }

/-- A trivial stream of per-step external inputs. -/
def draws0 : ℕ → StepDraw := fun _ => draw0

/-- A concrete reference-level particle whose arrays live at addresses
0, 1, 2. -/
def pRef0 : PParticleRef := { accRef := 0, CccRef := 1, alphaRef := 2, logweight := 0 }

/-- A concrete heap with every array entry 0. -/
def heap0 : Heap := fun _ _ => 0

/-! # Helper lemmas -/

theorem le_foldl_max (l : List ℝ) : ∀ b : ℝ, b ≤ l.foldl max b := by
  induction l with
  | nil => intro b; simp
  | cons x xs ih =>
    intro b
    simpa using le_trans (le_max_left b x) (ih (max b x))

theorem mem_le_foldl_max (l : List ℝ) : ∀ (b a : ℝ), a ∈ l → a ≤ l.foldl max b := by
  induction l with
  | nil => intro b a h; simp at h
  | cons x xs ih =>
    intro b a h
    rcases List.mem_cons.mp h with rfl | h
    · simpa using le_trans (le_max_right b a) (le_foldl_max xs (max b a))
    · simpa using ih (max b x) a h

theorem foldl_max_mem (l : List ℝ) : ∀ b : ℝ, l.foldl max b = b ∨ l.foldl max b ∈ l := by
  induction l with
  | nil => intro b; left; rfl
  | cons x xs ih =>
    intro b
    have h : (x :: xs).foldl max b = xs.foldl max (max b x) := by simp
    rcases ih (max b x) with h1 | h1
    · rcases max_choice b x with h2 | h2
      · left; rw [h, h1, h2]
      · right; rw [h, h1, h2]; exact List.mem_cons_self x xs
    · right; rw [h]; exact List.mem_cons_of_mem x h1

theorem le_npMax_of_mem {l : List ℝ} {a : ℝ} (h : a ∈ l) : a ≤ npMax l := by
  cases l with
  | nil => simp at h
  | cons x xs =>
    rcases List.mem_cons.mp h with rfl | h
    · simpa [npMax] using le_foldl_max xs a
    · simpa [npMax] using mem_le_foldl_max xs x a h

theorem npMax_mem {l : List ℝ} (h : l ≠ []) : npMax l ∈ l := by
  cases l with
  | nil => exact absurd rfl h
  | cons x xs =>
    rcases foldl_max_mem xs x with h1 | h1
    · simp [npMax, h1]
    · simp [npMax]
      right
      simpa using h1

theorem map_exp_nonneg (l : List ℝ) : ∀ y ∈ l.map Real.exp, 0 ≤ y := by
  intro y hy
  rcases List.mem_map.mp hy with ⟨x, _, rfl⟩
  exact le_of_lt (Real.exp_pos x)

theorem sum_map_exp_pos {l : List ℝ} (h : l ≠ []) : 0 < (l.map Real.exp).sum := by
  cases l with
  | nil => exact absurd rfl h
  | cons x xs =>
    have h1 : 0 ≤ (xs.map Real.exp).sum := List.sum_nonneg (map_exp_nonneg xs)
    have h2 : 0 < Real.exp x := Real.exp_pos x
    simp only [List.map_cons, List.sum_cons]
    linarith

theorem sum_map_exp_sub (l : List ℝ) (c : ℝ) :
    (l.map (fun x => Real.exp (x - c))).sum = Real.exp (-c) * (l.map Real.exp).sum := by
  induction l with
  | nil => simp
  | cons x xs ih =>
    simp only [List.map_cons, List.sum_cons, ih]
    rw [sub_eq_add_neg, Real.exp_add]
    ring

theorem logsumexp_eq {l : List ℝ} (h : l ≠ []) :
    logsumexp l = Real.log ((l.map Real.exp).sum) := by
  have hpos : 0 < (l.map Real.exp).sum := sum_map_exp_pos h
  unfold logsumexp
  rw [sum_map_exp_sub, Real.log_mul (Real.exp_ne_zero _) (ne_of_gt hpos), Real.log_exp]
  ring

theorem sum_map_sub_exp (l : List ℝ) (c : ℝ) :
    ((l.map (fun x => x - c)).map Real.exp).sum = Real.exp (-c) * (l.map Real.exp).sum := by
  rw [List.map_map]
  have h : (Real.exp ∘ fun x => x - c) = fun x => Real.exp (x - c) := rfl
  rw [h, sum_map_exp_sub]

theorem sum_exp_shift {l : List ℝ} (h : l ≠ []) :
    ((l.map (fun x => x - logsumexp l)).map Real.exp).sum = 1 := by
  have hpos : 0 < (l.map Real.exp).sum := sum_map_exp_pos h
  rw [sum_map_sub_exp, logsumexp_eq h, Real.exp_neg, Real.exp_log hpos]
  exact inv_mul_cancel₀ (ne_of_gt hpos)

theorem cumsumFrom_bounds (l : List ℝ) :
    ∀ a : ℝ, (∀ x ∈ l, 0 ≤ x) →
      List.Sorted (· ≤ ·) (cumsumFrom a l) ∧ ∀ y ∈ cumsumFrom a l, a ≤ y := by
  induction l with
  | nil =>
    intro a _
    refine ⟨List.sorted_nil, ?_⟩
    intro y hy
    simp [cumsumFrom] at hy
  | cons x xs ih =>
    intro a hnn
    have hx : 0 ≤ x := hnn x (List.mem_cons_self x xs)
    have htail := ih (a + x) (fun y hy => hnn y (List.mem_cons_of_mem x hy))
    constructor
    · rw [cumsumFrom, List.sorted_cons]
      exact ⟨fun b hb => htail.2 b hb, htail.1⟩
    · intro y hy
      rw [cumsumFrom] at hy
      rcases List.mem_cons.mp hy with rfl | hy
      · linarith
      · have := htail.2 y hy; linarith

theorem mem_cumsumFrom_pos (l : List ℝ) :
    ∀ a : ℝ, (∀ x ∈ l, 0 < x) → ∀ y ∈ cumsumFrom a l, a < y := by
  induction l with
  | nil => intro a _ y hy; simp [cumsumFrom] at hy
  | cons x xs ih =>
    intro a hpos y hy
    have hx : 0 < x := hpos x (List.mem_cons_self x xs)
    rw [cumsumFrom] at hy
    rcases List.mem_cons.mp hy with rfl | hy
    · linarith
    · have := ih (a + x) (fun z hz => hpos z (List.mem_cons_of_mem x hz)) y hy
      linarith

theorem cumsumFrom_length (l : List ℝ) : ∀ a : ℝ, (cumsumFrom a l).length = l.length := by
  induction l with
  | nil => intro a; rfl
  | cons x xs ih => intro a; simp [cumsumFrom, ih]

theorem sum_map_le_sum_map {α : Type} {l : List α} (f g : α → ℝ)
    (h : ∀ a ∈ l, f a ≤ g a) : (l.map f).sum ≤ (l.map g).sum := by
  induction l with
  | nil => simp
  | cons x xs ih =>
    simp only [List.map_cons, List.sum_cons]
    have h1 : f x ≤ g x := h x (List.mem_cons_self x xs)
    have h2 := ih (fun a ha => h a (List.mem_cons_of_mem x ha))
    linarith

theorem sum_le_length_mul {l : List ℝ} {a : ℝ} (h : ∀ x ∈ l, x ≤ a) :
    l.sum ≤ (l.length : ℝ) * a := by
  induction l with
  | nil => simp
  | cons x xs ih =>
    have h1 : x ≤ a := h x (List.mem_cons_self x xs)
    have h2 := ih (fun y hy => h y (List.mem_cons_of_mem x hy))
    simp only [List.sum_cons, List.length_cons]
    push_cast
    linarith

theorem all_eq_of_sum_eq_length_mul {l : List ℝ} {a : ℝ}
    (hle : ∀ x ∈ l, x ≤ a) (hsum : l.sum = (l.length : ℝ) * a) :
    ∀ x ∈ l, x = a := by
  induction l with
  | nil => intro x hx; simp at hx
  | cons y ys ih =>
    intro x hx
    have h1 : y ≤ a := hle y (List.mem_cons_self y ys)
    have h2 : ys.sum ≤ (ys.length : ℝ) * a :=
      sum_le_length_mul (fun z hz => hle z (List.mem_cons_of_mem y hz))
    have h3 : y + ys.sum = ((ys.length : ℝ) + 1) * a := by
      have := hsum
      simp only [List.sum_cons, List.length_cons] at this
      push_cast at this
      linarith
    have hy : y = a := by nlinarith
    have h4 : ys.sum = (ys.length : ℝ) * a := by nlinarith
    rcases List.mem_cons.mp hx with rfl | hx
    · exact hy
    · exact ih (fun z hz => hle z (List.mem_cons_of_mem y hz)) h4 x hx

theorem sum_sq_dev (l : List ℝ) (a : ℝ) :
    (l.map (fun x => (x - a) ^ 2)).sum =
      (l.map (fun x => x ^ 2)).sum - 2 * a * l.sum + (l.length : ℝ) * a ^ 2 := by
  induction l with
  | nil => simp
  | cons x xs ih =>
    simp only [List.map_cons, List.sum_cons, List.length_cons, ih]
    push_cast
    ring

theorem all_eq_of_sum_sq_eq_zero {l : List ℝ} {a : ℝ}
    (h : (l.map (fun x => (x - a) ^ 2)).sum = 0) : ∀ x ∈ l, x = a := by
  induction l with
  | nil => intro x hx; simp at hx
  | cons y ys ih =>
    intro x hx
    have h1 : 0 ≤ (ys.map (fun x => (x - a) ^ 2)).sum := by
      apply List.sum_nonneg
      intro z hz
      rcases List.mem_map.mp hz with ⟨w, _, rfl⟩
      positivity
    have h2 : 0 ≤ (y - a) ^ 2 := sq_nonneg _
    have h3 : (y - a) ^ 2 + (ys.map (fun x => (x - a) ^ 2)).sum = 0 := by
      simpa using h
    have h4 : (y - a) ^ 2 = 0 := by linarith
    have h5 : (ys.map (fun x => (x - a) ^ 2)).sum = 0 := by linarith
    rcases List.mem_cons.mp hx with rfl | hx
    · have := pow_eq_zero_iff (n := 2) (by norm_num) |>.mp h4
      linarith [sub_eq_zero.mp this]
    · exact ih h5 x hx

theorem list_sum_pos {l : List ℝ} (h : ∀ x ∈ l, 0 < x) (hne : l ≠ []) :
    0 < l.sum := by
  cases l with
  | nil => exact absurd rfl hne
  | cons x xs =>
    have h1 : 0 < x := h x (List.mem_cons_self x xs)
    have h2 : 0 ≤ xs.sum :=
      List.sum_nonneg (fun y hy => le_of_lt (h y (List.mem_cons_of_mem x hy)))
    simp only [List.sum_cons]
    linarith

theorem materialize_offspring_length :
    ∀ (sel : List ℕ) (qs : List LangevinParticle), sel.length = qs.length →
      (materialize_offspring sel qs).length = sel.sum := by
  intro sel
  induction sel with
  | nil =>
    intro qs h
    simp [materialize_offspring]
  | cons k ks ih =>
    intro qs h
    cases qs with
    | nil => simp at h
    | cons q qs' =>
      simp only [List.length_cons, Nat.add_right_cancel_iff] at h
      simp [materialize_offspring, ih qs' h]

theorem mem_materialize_offspring :
    ∀ (sel : List ℕ) (qs : List LangevinParticle) (q : LangevinParticle),
      q ∈ materialize_offspring sel qs → q ∈ qs := by
  intro sel
  induction sel with
  | nil => intro qs q h; simp [materialize_offspring] at h
  | cons k ks ih =>
    intro qs q h
    cases qs with
    | nil => simp [materialize_offspring] at h
    | cons p ps =>
      simp only [materialize_offspring, List.mem_append] at h
      rcases h with h | h
      · have := List.eq_of_mem_replicate h
        simp [this]
      · exact List.mem_cons_of_mem p (ih ps q h)

theorem mapStream_map {α β γ δ : Type} (g : β → δ) (f : α → γ → β) :
    ∀ (l : List α) (s : ℕ → γ),
      (mapStream f l s).map g = mapStream (fun a c => g (f a c)) l s := by
  intro l
  induction l with
  | nil => intro s; rfl
  | cons a rest ih => intro s; simp [mapStream, ih]

theorem mapStream_congr {α β γ : Type} (f g : α → γ → β) :
    ∀ (l : List α) (s : ℕ → γ), (∀ a ∈ l, ∀ c, f a c = g a c) →
      mapStream f l s = mapStream g l s := by
  intro l
  induction l with
  | nil => intro s _; rfl
  | cons a rest ih =>
    intro s h
    simp only [mapStream]
    rw [h a (List.mem_cons_self a rest) (s 0),
      ih (fun i => s (i + 1)) (fun b hb c => h b (List.mem_cons_of_mem a hb) c)]

theorem reweight_particles_particles (st : RBPF) :
    st.reweight_particles.particles =
      st.particles.map (fun q =>
        { q with logweight :=
            q.logweight - logsumexp (st.particles.map (fun p => p.logweight)) }) := rfl

theorem reweight_lw (st : RBPF) :
    st.reweight_particles.particles.map (fun q => q.logweight) =
      (st.particles.map (fun q => q.logweight)).map
        (fun x => x - logsumexp (st.particles.map (fun q => q.logweight))) := by
  rw [reweight_particles_particles, List.map_map, List.map_map]
  rfl

theorem reweight_particles_of_logsumexp_zero (st : RBPF)
    (h0 : logsumexp (st.particles.map (fun q => q.logweight)) = 0) :
    st.reweight_particles = st := by
  have hmap : st.particles.map (fun q =>
      ({ q with logweight :=
          q.logweight - logsumexp (st.particles.map (fun p => p.logweight)) } :
        LangevinParticle)) = st.particles := by
    have hfun : ∀ q ∈ st.particles,
        ({ q with logweight :=
            q.logweight - logsumexp (st.particles.map (fun p => p.logweight)) } :
          LangevinParticle) = q := by
      intro q _
      rw [h0, sub_zero]
    rw [List.map_congr_left hfun]
    exact List.map_id st.particles
  have h1 : st.reweight_particles =
      { st with particles := st.particles.map (fun q =>
          { q with logweight :=
              q.logweight - logsumexp (st.particles.map (fun p => p.logweight)) }) } := rfl
  rw [h1, hmap]

/-! # Claim theorems -/

/-- C10: for every non-empty list of reals, the stabilized helper
logsumexp, computed as max(x) + log(sum of exp(x_i - max(x))), equals the
naive definition log(sum of exp(x_i)). -/
theorem logsumexp_eq_naive (x : List ℝ) (h : x ≠ []) :
    logsumexp x = naive_logsumexp x :=
  logsumexp_eq h

theorem logsumexp_eq_naive_witness :
    ([(0 : ℝ)] ≠ []) ∧ logsumexp [(0 : ℝ)] = naive_logsumexp [(0 : ℝ)] :=
  ⟨by simp, logsumexp_eq_naive [(0 : ℝ)] (by simp)⟩

/-- C3: reweight_particles is idempotent - applying it twice starting from a
population with a non-empty particle list equals applying it once (every
log-weight unchanged by the second call; over exact reals every log-weight is
finite) - and after every call the particle weights exponentiate and sum to
exactly 1. -/
theorem reweight_particles_idempotent_normalized (st : RBPF)
    (h : st.particles ≠ []) :
    st.reweight_particles.reweight_particles = st.reweight_particles ∧
    (st.reweight_particles.particles.map (fun q => Real.exp q.logweight)).sum = 1 := by
  have hlw : st.particles.map (fun q => q.logweight) ≠ [] := by
    intro hh
    exact h (by simpa using hh)
  have e1 : st.reweight_particles.particles.map (fun q => Real.exp q.logweight) =
      (st.reweight_particles.particles.map (fun q => q.logweight)).map Real.exp := by
    rw [List.map_map]
    rfl
  have hsum1 :
      (st.reweight_particles.particles.map (fun q => Real.exp q.logweight)).sum = 1 := by
    rw [e1, reweight_lw]
    exact sum_exp_shift hlw
  refine ⟨?_, hsum1⟩
  apply reweight_particles_of_logsumexp_zero
  have hlw2 : st.reweight_particles.particles.map (fun q => q.logweight) ≠ [] := by
    rw [reweight_lw]
    intro hh
    exact hlw (by simpa using hh)
  rw [logsumexp_eq hlw2, ← e1, hsum1]
  exact Real.log_one

theorem reweight_particles_idempotent_normalized_witness :
    (st_c.particles ≠ []) ∧
    (st_c.reweight_particles.reweight_particles = st_c.reweight_particles ∧
      (st_c.reweight_particles.particles.map (fun q => Real.exp q.logweight)).sum = 1) :=
  ⟨by simp [st_c], reweight_particles_idempotent_normalized st_c (by simp [st_c])⟩

/-- C2: whenever resample_particles runs with a multinomial count vector of
the population's length whose counts total N, the new population has exactly
N particles and every particle's log-weight is exactly -log(N). -/
theorem resample_particles_size_and_weights (st : RBPF) (selections : List ℕ)
    (hlen : selections.length = st.particles.length)
    (hsum : selections.sum = st.N) :
    (st.resample_particles selections).particles.length = st.N ∧
    ∀ q ∈ (st.resample_particles selections).particles,
      q.logweight = -Real.log (st.N : ℝ) := by
  have hpart : (st.resample_particles selections).particles =
      (materialize_offspring selections st.particles).map
        (fun q => { q with logweight := -Real.log (st.N : ℝ) }) := rfl
  constructor
  · rw [hpart, List.length_map,
      materialize_offspring_length selections st.particles hlen, hsum]
  · intro q hq
    rw [hpart] at hq
    rcases List.mem_map.mp hq with ⟨p, _, rfl⟩
    rfl

theorem resample_particles_size_and_weights_witness :
    (([1] : List ℕ).length = st_c.particles.length ∧ ([1] : List ℕ).sum = st_c.N) ∧
    ((st_c.resample_particles [1]).particles.length = st_c.N ∧
      ∀ q ∈ (st_c.resample_particles [1]).particles,
        q.logweight = -Real.log (st_c.N : ℝ)) :=
  ⟨⟨rfl, rfl⟩, resample_particles_size_and_weights st_c [1] rfl rfl⟩

theorem ess_core {w : List ℝ} {N : ℕ} (hpos : ∀ y ∈ w, 0 < y)
    (hlen : w.length = N) (hne : w ≠ []) (hsum : w.sum = 1) :
    (0 ≤ -Real.log ((w.map (fun y => y ^ 2)).sum) ∧
      -Real.log ((w.map (fun y => y ^ 2)).sum) ≤ Real.log (N : ℝ)) ∧
    (-Real.log ((w.map (fun y => y ^ 2)).sum) = Real.log (N : ℝ) →
      ∀ y ∈ w, y = 1 / (N : ℝ)) := by
  have hNpos : (0 : ℝ) < (N : ℝ) := by
    have h1 : 0 < w.length := List.length_pos.mpr hne
    rw [hlen] at h1
    exact_mod_cast h1
  have hNne : (N : ℝ) ≠ 0 := ne_of_gt hNpos
  have hnonneg : ∀ y ∈ w, 0 ≤ y := fun y hy => le_of_lt (hpos y hy)
  have hle1 : ∀ y ∈ w, y ≤ 1 := by
    intro y hy
    have := List.single_le_sum hnonneg y hy
    rwa [hsum] at this
  have hub : (w.map (fun y => y ^ 2)).sum ≤ 1 := by
    have h1 : (w.map (fun y => y ^ 2)).sum ≤ (w.map (fun y => y)).sum := by
      apply sum_map_le_sum_map
      intro y hy
      have h2 := hnonneg y hy
      have h3 := hle1 y hy
      nlinarith
    have h2 : (w.map (fun y => y)).sum = w.sum := by simp
    rw [h2, hsum] at h1
    exact h1
  have hdev_eq : (w.map (fun y => (y - 1 / (N : ℝ)) ^ 2)).sum =
      (w.map (fun y => y ^ 2)).sum - 1 / (N : ℝ) := by
    rw [sum_sq_dev w (1 / (N : ℝ)), hsum, hlen]
    field_simp
    ring
  have hdev_nonneg : 0 ≤ (w.map (fun y => (y - 1 / (N : ℝ)) ^ 2)).sum := by
    apply List.sum_nonneg
    intro z hz
    rcases List.mem_map.mp hz with ⟨y, _, rfl⟩
    positivity
  have hlb : 1 / (N : ℝ) ≤ (w.map (fun y => y ^ 2)).sum := by linarith
  have hS2pos : 0 < (w.map (fun y => y ^ 2)).sum :=
    lt_of_lt_of_le (by positivity) hlb
  constructor
  · constructor
    · have := Real.log_nonpos (le_of_lt hS2pos) hub
      linarith
    · have h1 := Real.log_le_log (show (0 : ℝ) < 1 / (N : ℝ) by positivity) hlb
      rw [one_div, Real.log_inv] at h1
      linarith
  · intro hEq
    have hlogS2 : Real.log ((w.map (fun y => y ^ 2)).sum) = Real.log (1 / (N : ℝ)) := by
      rw [one_div, Real.log_inv]
      linarith
    have hS2eq : (w.map (fun y => y ^ 2)).sum = 1 / (N : ℝ) := by
      have h1 := Real.exp_log hS2pos
      have h2 := Real.exp_log (show (0 : ℝ) < 1 / (N : ℝ) by positivity)
      rw [← h1, hlogS2, h2]
    have hdev0 : (w.map (fun y => (y - 1 / (N : ℝ)) ^ 2)).sum = 0 := by
      rw [hdev_eq, hS2eq]
      ring
    exact all_eq_of_sum_sq_eq_zero hdev0

theorem ess_max_core {lw : List ℝ} {N : ℕ} (hlen : lw.length = N)
    (hne : lw ≠ []) (hsum : (lw.map Real.exp).sum = 1) :
    (0 ≤ -npMax lw ∧ -npMax lw ≤ Real.log (N : ℝ)) ∧
    (-npMax lw = Real.log (N : ℝ) → ∀ x ∈ lw, Real.exp x = 1 / (N : ℝ)) := by
  have hNpos : (0 : ℝ) < (N : ℝ) := by
    have h1 : 0 < lw.length := List.length_pos.mpr hne
    rw [hlen] at h1
    exact_mod_cast h1
  have hnonneg : ∀ y ∈ lw.map Real.exp, 0 ≤ y := map_exp_nonneg lw
  have hexpM_mem : Real.exp (npMax lw) ∈ lw.map Real.exp :=
    List.mem_map_of_mem Real.exp (npMax_mem hne)
  have hub : ∀ y ∈ lw.map Real.exp, y ≤ Real.exp (npMax lw) := by
    intro y hy
    rcases List.mem_map.mp hy with ⟨x, hx, rfl⟩
    exact Real.exp_le_exp.mpr (le_npMax_of_mem hx)
  have hexpM_le1 : Real.exp (npMax lw) ≤ 1 := by
    have := List.single_le_sum hnonneg _ hexpM_mem
    rwa [hsum] at this
  have hMle0 : npMax lw ≤ 0 := Real.exp_le_one_iff.mp hexpM_le1
  have hsum_le : (1 : ℝ) ≤ (N : ℝ) * Real.exp (npMax lw) := by
    have h1 := sum_le_length_mul hub
    rw [hsum, List.length_map, hlen] at h1
    linarith
  have hinv : 1 / (N : ℝ) ≤ Real.exp (npMax lw) := by
    rw [div_le_iff₀ hNpos]
    linarith
  constructor
  · constructor
    · linarith
    · have h1 := Real.log_le_log (show (0 : ℝ) < 1 / (N : ℝ) by positivity) hinv
      rw [Real.log_exp, one_div, Real.log_inv] at h1
      linarith
  · intro hEq
    have hMv : npMax lw = -Real.log (N : ℝ) := by linarith
    have hexpM_eq : Real.exp (npMax lw) = 1 / (N : ℝ) := by
      rw [hMv, Real.exp_neg, Real.exp_log hNpos, one_div]
    have hyle : ∀ y ∈ lw.map Real.exp, y ≤ 1 / (N : ℝ) := by
      intro y hy
      have := hub y hy
      rwa [hexpM_eq] at this
    have hsum_eq : (lw.map Real.exp).sum = (((lw.map Real.exp).length : ℝ)) * (1 / (N : ℝ)) := by
      rw [hsum, List.length_map, hlen]
      field_simp
    have hall := all_eq_of_sum_eq_length_mul hyle hsum_eq
    intro x hx
    exact hall _ (List.mem_map_of_mem Real.exp hx)

theorem get_logPn2_eq (st : RBPF) :
    st.get_logPn2 = -Real.log (((st.particles.map (fun q => Real.exp q.logweight)).map
      (fun y => y ^ 2)).sum) := by
  have h1 : st.particles.map (fun q => Real.exp (2 * q.logweight)) =
      (st.particles.map (fun q => Real.exp q.logweight)).map (fun y => y ^ 2) := by
    rw [List.map_map]
    apply List.map_congr_left
    intro q _
    show Real.exp (2 * q.logweight) = (Real.exp q.logweight) ^ 2
    rw [two_mul, Real.exp_add, sq]
  unfold RBPF.get_logPn2
  rw [h1]

/-- C6: for a population with normalized weights (the exponentiated
log-weights sum to 1), both ESS estimators get_logPn2 and get_logDninf lie in
[0, log N], and either one equals log N only when every particle weight is
exactly uniform, equal to 1/N. -/
theorem ess_estimators_range_and_uniformity (st : RBPF)
    (hne : st.particles ≠ []) (hlen : st.particles.length = st.N)
    (hnorm : (st.particles.map (fun q => Real.exp q.logweight)).sum = 1) :
    (0 ≤ st.get_logPn2 ∧ st.get_logPn2 ≤ Real.log (st.N : ℝ)) ∧
    (0 ≤ st.get_logDninf ∧ st.get_logDninf ≤ Real.log (st.N : ℝ)) ∧
    (st.get_logPn2 = Real.log (st.N : ℝ) →
      ∀ q ∈ st.particles, Real.exp q.logweight = 1 / (st.N : ℝ)) ∧
    (st.get_logDninf = Real.log (st.N : ℝ) →
      ∀ q ∈ st.particles, Real.exp q.logweight = 1 / (st.N : ℝ)) := by
  have hlwne : st.particles.map (fun q => q.logweight) ≠ [] := by
    intro hh
    exact hne (by simpa using hh)
  have hlwlen : (st.particles.map (fun q => q.logweight)).length = st.N := by
    rw [List.length_map, hlen]
  have hw_eq : (st.particles.map (fun q => q.logweight)).map Real.exp =
      st.particles.map (fun q => Real.exp q.logweight) := by
    rw [List.map_map]
    rfl
  have hsum' : ((st.particles.map (fun q => q.logweight)).map Real.exp).sum = 1 := by
    rw [hw_eq]
    exact hnorm
  have hmax := ess_max_core hlwlen hlwne hsum'
  have hw_pos : ∀ y ∈ st.particles.map (fun q => Real.exp q.logweight), 0 < y := by
    intro y hy
    rcases List.mem_map.mp hy with ⟨q, _, rfl⟩
    exact Real.exp_pos _
  have hw_len : (st.particles.map (fun q => Real.exp q.logweight)).length = st.N := by
    rw [List.length_map, hlen]
  have hw_ne : st.particles.map (fun q => Real.exp q.logweight) ≠ [] := by
    intro hh
    exact hne (by simpa using hh)
  have hcore := ess_core hw_pos hw_len hw_ne hnorm
  have hPn2 := get_logPn2_eq st
  have hDninf : st.get_logDninf = -npMax (st.particles.map (fun q => q.logweight)) := rfl
  refine ⟨?_, ?_, ?_, ?_⟩
  · rw [hPn2]
    exact hcore.1
  · rw [hDninf]
    exact hmax.1
  · intro hEq q hq
    rw [hPn2] at hEq
    apply hcore.2 hEq
    exact List.mem_map_of_mem _ hq
  · intro hEq q hq
    rw [hDninf] at hEq
    apply hmax.2 hEq
    exact List.mem_map_of_mem _ hq

theorem ess_estimators_range_and_uniformity_witness :
    (st_c.particles ≠ [] ∧ st_c.particles.length = st_c.N ∧
      (st_c.particles.map (fun q => Real.exp q.logweight)).sum = 1) ∧
    ((0 ≤ st_c.get_logPn2 ∧ st_c.get_logPn2 ≤ Real.log (st_c.N : ℝ)) ∧
      (0 ≤ st_c.get_logDninf ∧ st_c.get_logDninf ≤ Real.log (st_c.N : ℝ)) ∧
      (st_c.get_logPn2 = Real.log (st_c.N : ℝ) →
        ∀ q ∈ st_c.particles, Real.exp q.logweight = 1 / (st_c.N : ℝ)) ∧
      (st_c.get_logDninf = Real.log (st_c.N : ℝ) →
        ∀ q ∈ st_c.particles, Real.exp q.logweight = 1 / (st_c.N : ℝ))) := by
  have h1 : st_c.particles ≠ [] := by simp [st_c]
  have h2 : st_c.particles.length = st_c.N := rfl
  have h3 : (st_c.particles.map (fun q => Real.exp q.logweight)).sum = 1 := by
    simp [st_c, particle0]
  exact ⟨⟨h1, h2, h3⟩, ess_estimators_range_and_uniformity st_c h1 h2 h3⟩

theorem sort_jumps_fst_sorted (times jumps : List ℝ) :
    List.Sorted (· ≤ ·) (sort_jumps times jumps).1 := by
  have h := List.sorted_insertionSort timeLE (times.zip jumps)
  exact List.Pairwise.map Prod.fst (fun a b hab => hab) h

theorem sort_jumps_mem_fst (times jumps : List ℝ) (t : ℝ)
    (h : t ∈ (sort_jumps times jumps).1) : t ∈ times := by
  rcases List.mem_map.mp h with ⟨p, hp, rfl⟩
  have hp2 : p ∈ times.zip jumps := (List.perm_insertionSort timeLE _).subset hp
  exact (List.of_mem_zip hp2).1

theorem sort_jumps_mem_snd (times jumps : List ℝ) (j : ℝ)
    (h : j ∈ (sort_jumps times jumps).2) : j ∈ jumps := by
  rcases List.mem_map.mp h with ⟨p, hp, rfl⟩
  have hp2 : p ∈ times.zip jumps := (List.perm_insertionSort timeLE _).subset hp
  exact (List.of_mem_zip hp2).2

theorem accept_mem (x acceps us : List ℝ) (j : ℝ) (h : j ∈ accept x acceps us) :
    j ∈ x := by
  unfold accept at h
  rcases List.mem_filterMap.mp h with ⟨trip, htrip, hsome⟩
  by_cases hc : trip.2 < trip.1.2
  · rw [if_pos hc, Option.some_inj] at hsome
    have h1 : trip.1 ∈ x.zip acceps := (List.of_mem_zip htrip).1
    have h2 : trip.1.1 ∈ x := (List.of_mem_zip h1).1
    rwa [hsome] at h2
  · rw [if_neg hc] at hsome
    exact absurd hsome (by simp)

theorem cumsum_sorted (l : List ℝ) (h : ∀ j ∈ l, 0 ≤ j) :
    List.Sorted (· ≤ ·) (cumsum l) :=
  (cumsumFrom_bounds l 0 h).1

/-- C1: for valid parameters (c, beta, rate, samps all positive) and a
positive window end maxT, with the randomness explicit (positive
inter-arrival gaps, uniform time draws in [0,1]), the simulated path's jump
times are sorted ascending and lie within the window [0, maxT] (the source
draws times as maxT * rand), and its cumulative values are non-decreasing. -/
theorem gamma_path_sorted_window_monotone (c beta rate : ℝ) (samps : ℕ)
    (maxT : ℝ) (gaps us uts : List ℝ)
    (hc : 0 < c) (hbeta : 0 < beta) (hrate : 0 < rate) (hsamps : 0 < samps)
    (hmaxT : 0 < maxT)
    (hgapslen : gaps.length = samps) (huslen : us.length = samps)
    (hutslen : uts.length = samps)
    (hgaps : ∀ g ∈ gaps, 0 < g) (huts : ∀ u ∈ uts, 0 ≤ u ∧ u ≤ 1) :
    List.Sorted (· ≤ ·) (gen_gamma_process c beta rate samps maxT gaps us uts).1 ∧
    (∀ t ∈ (gen_gamma_process c beta rate samps maxT gaps us uts).1,
      0 ≤ t ∧ t ≤ maxT) ∧
    List.Sorted (· ≤ ·) (gen_gamma_process c beta rate samps maxT gaps us uts).2 := by
  refine ⟨?_, ?_, ?_⟩
  · exact sort_jumps_fst_sorted _ _
  · intro t ht
    have ht2 : t ∈ uts.map (fun u => maxT * u) := sort_jumps_mem_fst _ _ t ht
    rcases List.mem_map.mp ht2 with ⟨u, hu, rfl⟩
    rcases huts u hu with ⟨h0, h1⟩
    exact ⟨mul_nonneg (le_of_lt hmaxT) h0,
      mul_le_of_le_one_right (le_of_lt hmaxT) h1⟩
  · apply cumsum_sorted
    intro j hj
    have hj2 := sort_jumps_mem_snd _ _ j hj
    have hj3 := accept_mem _ _ _ j hj2
    rcases List.mem_map.mp hj3 with ⟨e, he, rfl⟩
    rcases List.mem_map.mp he with ⟨e0, he0, rfl⟩
    have he0pos : 0 < e0 := mem_cumsumFrom_pos gaps 0 hgaps e0 he0
    have hepos : 0 < e0 / rate := div_pos he0pos hrate
    have hexp : 1 < Real.exp (e0 / rate / c) := by
      have h2 : 0 < e0 / rate / c := div_pos hepos hc
      calc (1 : ℝ) = Real.exp 0 := Real.exp_zero.symm
        _ < Real.exp (e0 / rate / c) := Real.exp_lt_exp.mpr h2
    have hden : 0 < beta * (Real.exp (e0 / rate / c) - 1) :=
      mul_pos hbeta (by linarith)
    have hfr : 0 < 1 / (beta * (Real.exp (e0 / rate / c) - 1)) := by positivity
    linarith

theorem gamma_path_sorted_window_monotone_witness :
    ((0 : ℝ) < 1 ∧ (0 : ℕ) < 1 ∧
      ([(1 : ℝ)].length = 1 ∧ [(0 : ℝ)].length = 1 ∧ [(1 / 2 : ℝ)].length = 1) ∧
      (∀ g ∈ [(1 : ℝ)], 0 < g) ∧ (∀ u ∈ [(1 / 2 : ℝ)], 0 ≤ u ∧ u ≤ 1)) ∧
    (List.Sorted (· ≤ ·) (gen_gamma_process 1 1 1 1 1 [1] [0] [1 / 2]).1 ∧
      (∀ t ∈ (gen_gamma_process 1 1 1 1 1 [1] [0] [1 / 2]).1, 0 ≤ t ∧ t ≤ 1) ∧
      List.Sorted (· ≤ ·) (gen_gamma_process 1 1 1 1 1 [1] [0] [1 / 2]).2) := by
  have hg : ∀ g ∈ [(1 : ℝ)], 0 < g := by
    intro g hgm
    rw [List.mem_singleton] at hgm
    rw [hgm]
    norm_num
  have hu : ∀ u ∈ [(1 / 2 : ℝ)], 0 ≤ u ∧ u ≤ 1 := by
    intro u hum
    rw [List.mem_singleton] at hum
    rw [hum]
    constructor <;> norm_num
  refine ⟨⟨by norm_num, by norm_num, ⟨rfl, rfl, rfl⟩, hg, hu⟩, ?_⟩
  exact gamma_path_sorted_window_monotone 1 1 1 1 1 [1] [0] [1 / 2]
    (by norm_num) (by norm_num) (by norm_num) (by norm_num) (by norm_num)
    rfl rfl rfl hg hu

theorem mem_materialize_offspring_refs :
    ∀ (sel : List ℕ) (qs : List PParticleRef) (q : PParticleRef),
      q ∈ materialize_offspring_refs sel qs → ∃ p ∈ qs, q = pyCopy p := by
  intro sel
  induction sel with
  | nil => intro qs q h; simp [materialize_offspring_refs] at h
  | cons k ks ih =>
    intro qs q h
    cases qs with
    | nil => simp [materialize_offspring_refs] at h
    | cons p ps =>
      simp only [materialize_offspring_refs, List.mem_append] at h
      rcases h with h | h
      · exact ⟨p, List.mem_cons_self p ps, List.eq_of_mem_replicate h⟩
      · rcases ih ps q h with ⟨p1, hp1, hq⟩
        exact ⟨p1, List.mem_cons_of_mem p hp1, hq⟩

/-- C4 (counterexample): the claim that resampled offspring are independent
non-aliasing copies is false for the source's copy.copy, which is a shallow
copy.  With one particle whose mean array lives at address 0 and a
multinomial count of 2, both offspring hold the same mean address; writing 42
into the first offspring's mean storage makes the second offspring's mean
storage read 42 instead of its previous 0. -/
theorem resample_shallow_copy_aliases_siblings :
    ((resample_particles_refs 2 [pRef0] [2]).map (fun q => q.accRef) = [0, 0]) ∧
    readArr heap0 ((resample_particles_refs 2 [pRef0] [2]).getD 1 pRef0).accRef 0 = 0 ∧
    readArr
      (writeArr heap0 ((resample_particles_refs 2 [pRef0] [2]).getD 0 pRef0).accRef 0 42)
      ((resample_particles_refs 2 [pRef0] [2]).getD 1 pRef0).accRef 0 = 42 ∧
    (42 : ℝ) ≠ 0 := by
  refine ⟨rfl, rfl, rfl, by norm_num⟩

/-- C4 (amended): every offspring placed by resample_particles is a distinct
particle object whose log-weight is set independently to -log(N), but it is a
shallow copy: its mean, covariance and state-sample storage are the very
array references of the parent it was copied from (copy.copy shares the
numpy arrays). -/
theorem resample_offspring_alias_parent_storage (N : ℕ)
    (particles : List PParticleRef) (selections : List ℕ) :
    ∀ q ∈ resample_particles_refs N particles selections,
      (∃ p ∈ particles,
        q.accRef = p.accRef ∧ q.CccRef = p.CccRef ∧ q.alphaRef = p.alphaRef) ∧
      q.logweight = -Real.log (N : ℝ) := by
  intro q hq
  unfold resample_particles_refs at hq
  rcases List.mem_map.mp hq with ⟨p0, hp0, rfl⟩
  rcases mem_materialize_offspring_refs selections particles p0 hp0 with ⟨p, hp, rfl⟩
  exact ⟨⟨p, hp, rfl, rfl, rfl⟩, rfl⟩

theorem resample_offspring_alias_parent_storage_witness :
    ((⟨0, 1, 2, -Real.log ((2 : ℕ) : ℝ)⟩ : PParticleRef) ∈
      resample_particles_refs 2 [pRef0] [2]) ∧
    ((∃ p ∈ [pRef0],
        (⟨0, 1, 2, -Real.log ((2 : ℕ) : ℝ)⟩ : PParticleRef).accRef = p.accRef ∧
        (⟨0, 1, 2, -Real.log ((2 : ℕ) : ℝ)⟩ : PParticleRef).CccRef = p.CccRef ∧
        (⟨0, 1, 2, -Real.log ((2 : ℕ) : ℝ)⟩ : PParticleRef).alphaRef = p.alphaRef) ∧
      (⟨0, 1, 2, -Real.log ((2 : ℕ) : ℝ)⟩ : PParticleRef).logweight =
        -Real.log ((2 : ℕ) : ℝ)) := by
  have hm : (⟨0, 1, 2, -Real.log ((2 : ℕ) : ℝ)⟩ : PParticleRef) ∈
      resample_particles_refs 2 [pRef0] [2] :=
    List.mem_cons_self _ _
  exact ⟨hm, resample_offspring_alias_parent_storage 2 [pRef0] [2] _ hm⟩

theorem increment_logweight (pr : Providers) (p : LangevinParticle)
    (observation s t : ℝ) (d : StepDraw) :
    (p.increment pr observation s t d).logweight =
      p.logweight + LangevinParticle.step_log_ped pr p observation s t d := rfl

theorem increment_particles_fields (pr : Providers) (st : RBPF)
    (draws : ℕ → StepDraw) :
    (st.increment_particles pr draws).log_marginal_likelihood =
        st.log_marginal_likelihood ∧
      (st.increment_particles pr draws).N = st.N ∧
      (st.increment_particles pr draws).log_resample_limit =
        st.log_resample_limit := by
  unfold RBPF.increment_particles
  rcases hp : st.remaining_prices with _ | ⟨price, prest⟩ <;>
    rcases ht : st.remaining_times with _ | ⟨time, trest⟩ <;>
      simp [hp, ht]

theorem run_filter_step_eq (pr : Providers) (st : RBPF) (draws : ℕ → StepDraw)
    (selections : List ℕ) :
    st.run_filter_step pr draws selections =
      (if (st.pre_resample_state pr draws).get_logDninf <
          (st.pre_resample_state pr draws).log_resample_limit then
        (st.pre_resample_state pr draws).resample_particles selections
      else st.pre_resample_state pr draws) := rfl

theorem pre_resample_state_lml (pr : Providers) (st : RBPF)
    (draws : ℕ → StepDraw) :
    (st.pre_resample_state pr draws).log_marginal_likelihood =
      (st.increment_particles pr draws).log_marginal_likelihood +
        (st.increment_particles pr draws).get_log_predictive_likelihood := rfl

theorem pre_resample_state_limit (pr : Providers) (st : RBPF)
    (draws : ℕ → StepDraw) :
    (st.pre_resample_state pr draws).log_resample_limit =
      st.log_resample_limit := by
  have e1 : (st.pre_resample_state pr draws).log_resample_limit =
      (st.increment_particles pr draws).log_resample_limit := rfl
  rw [e1, (increment_particles_fields pr st draws).2.2]

theorem run_filter_step_lml (pr : Providers) (st : RBPF) (draws : ℕ → StepDraw)
    (selections : List ℕ) :
    (st.run_filter_step pr draws selections).log_marginal_likelihood =
      st.log_marginal_likelihood +
        (st.increment_particles pr draws).get_log_predictive_likelihood := by
  have e2 : (st.run_filter_step pr draws selections).log_marginal_likelihood =
      (st.pre_resample_state pr draws).log_marginal_likelihood := by
    rw [run_filter_step_eq]
    by_cases hc : (st.pre_resample_state pr draws).get_logDninf <
        (st.pre_resample_state pr draws).log_resample_limit
    · rw [if_pos hc]
      rfl
    · rw [if_neg hc]
  rw [e2, pre_resample_state_lml, (increment_particles_fields pr st draws).1]

/-- C5: in each run_filter iteration, the marginal-likelihood accumulator
grows by exactly the log-sum-exp of the particles' log-weights as they stand
after increment_particles and before reweighting, and resampling happens in
that iteration exactly when the degeneracy proxy, minus the maximum
normalized log-weight (computed on the reweighted pre_resample_state), is
strictly below log(N * epsilon). -/
theorem run_filter_step_marginal_and_resample_gate (pr : Providers) (st : RBPF)
    (draws : ℕ → StepDraw) (selections : List ℕ) (epsilon : ℝ)
    (hlim : st.log_resample_limit = Real.log ((st.N : ℝ) * epsilon)) :
    (st.run_filter_step pr draws selections).log_marginal_likelihood =
      st.log_marginal_likelihood +
        logsumexp ((st.increment_particles pr draws).particles.map
          (fun q => q.logweight)) ∧
    (-npMax ((st.pre_resample_state pr draws).particles.map
          (fun q => q.logweight)) < Real.log ((st.N : ℝ) * epsilon) →
      st.run_filter_step pr draws selections =
        (st.pre_resample_state pr draws).resample_particles selections) ∧
    (¬ -npMax ((st.pre_resample_state pr draws).particles.map
          (fun q => q.logweight)) < Real.log ((st.N : ℝ) * epsilon) →
      st.run_filter_step pr draws selections = st.pre_resample_state pr draws) := by
  have hlim2 : (st.pre_resample_state pr draws).log_resample_limit =
      Real.log ((st.N : ℝ) * epsilon) := by
    rw [pre_resample_state_limit, hlim]
  refine ⟨?_, ?_, ?_⟩
  · rw [run_filter_step_lml]
    rfl
  · intro hc
    have hc2 : (st.pre_resample_state pr draws).get_logDninf <
        (st.pre_resample_state pr draws).log_resample_limit := by
      rw [hlim2]
      exact hc
    rw [run_filter_step_eq, if_pos hc2]
  · intro hnc
    have hnc2 : ¬ (st.pre_resample_state pr draws).get_logDninf <
        (st.pre_resample_state pr draws).log_resample_limit := by
      rw [hlim2]
      exact hnc
    rw [run_filter_step_eq, if_neg hnc2]

theorem run_filter_step_marginal_and_resample_gate_witness :
    (st_c.log_resample_limit = Real.log ((st_c.N : ℝ) * 1)) ∧
    ((st_c.run_filter_step providers0 draws0 [1]).log_marginal_likelihood =
      st_c.log_marginal_likelihood +
        logsumexp ((st_c.increment_particles providers0 draws0).particles.map
          (fun q => q.logweight)) ∧
    (-npMax ((st_c.pre_resample_state providers0 draws0).particles.map
          (fun q => q.logweight)) < Real.log ((st_c.N : ℝ) * 1) →
      st_c.run_filter_step providers0 draws0 [1] =
        (st_c.pre_resample_state providers0 draws0).resample_particles [1]) ∧
    (¬ -npMax ((st_c.pre_resample_state providers0 draws0).particles.map
          (fun q => q.logweight)) < Real.log ((st_c.N : ℝ) * 1) →
      st_c.run_filter_step providers0 draws0 [1] =
        st_c.pre_resample_state providers0 draws0)) :=
  ⟨rfl, run_filter_step_marginal_and_resample_gate providers0 st_c draws0 [1] 1 rfl⟩

theorem sum_map_const_one {α : Type} (l : List α) (f : α → ℝ)
    (h : ∀ a ∈ l, f a = 1) : (l.map f).sum = (l.length : ℝ) := by
  induction l with
  | nil => simp
  | cons x xs ih =>
    simp only [List.map_cons, List.sum_cons, List.length_cons]
    rw [h x (List.mem_cons_self x xs),
      ih (fun a ha => h a (List.mem_cons_of_mem x ha))]
    push_cast
    ring

theorem mapStream_eq_nil {α β γ : Type} (f : α → γ → β) (l : List α)
    (s : ℕ → γ) : mapStream f l s = [] ↔ l = [] := by
  cases l <;> simp [mapStream]

theorem first_increment_log_sum (pr : Providers) (st : RBPF)
    (draws : ℕ → StepDraw) (selections : List ℕ) (price time : ℝ)
    (prest trest : List ℝ)
    (hzero : ∀ q ∈ st.particles, q.logweight = 0)
    (hlml : st.log_marginal_likelihood = 0)
    (hrp : st.remaining_prices = price :: prest)
    (hrt : st.remaining_times = time :: trest) :
    (st.run_filter_step pr draws selections).log_marginal_likelihood =
      Real.log ((mapStream (fun q d => Real.exp
        (LangevinParticle.step_log_ped pr q price st.current_time time d))
        st.particles draws).sum) := by
  rw [run_filter_step_lml, hlml, zero_add]
  have hst1parts : (st.increment_particles pr draws).particles =
      mapStream (fun q d => q.increment pr price st.current_time time d)
        st.particles draws := by
    unfold RBPF.increment_particles
    simp only [hrp, hrt]
  have hLW : (st.increment_particles pr draws).particles.map
      (fun q => q.logweight) =
      mapStream (fun q d =>
        LangevinParticle.step_log_ped pr q price st.current_time time d)
        st.particles draws := by
    rw [hst1parts, mapStream_map]
    apply mapStream_congr
    intro a haMem c
    have h1 : (a.increment pr price st.current_time time c).logweight =
        a.logweight +
          LangevinParticle.step_log_ped pr a price st.current_time time c := rfl
    rw [h1, hzero a haMem, zero_add]
  show logsumexp ((st.increment_particles pr draws).particles.map
    (fun q => q.logweight)) = _
  rw [hLW]
  by_cases hne : mapStream (fun q d =>
      LangevinParticle.step_log_ped pr q price st.current_time time d)
      st.particles draws = []
  · have hTnil : st.particles = [] := (mapStream_eq_nil _ _ _).mp hne
    rw [hne, hTnil]
    simp [logsumexp, npMax, mapStream]
  · rw [logsumexp_eq hne, mapStream_map]

/-- C9: at filter construction every particle's log-weight is exactly 0 (not
-log N), so the exponentiated weights sum to N (not 1), and the first
marginal-likelihood increment produced by a run_filter iteration equals the
log of the sum (not the average) of the particles' first-step predictive
densities exp(step_log_ped). -/
theorem initial_weights_zero_first_increment_log_sum (pr : Providers)
    (mumu sigmasq beta kw kv theta : ℝ) (gsamps : ℕ)
    (t0 t1 p0 p1 : ℝ) (ts ps : List ℝ) (N : ℕ) (epsilon : ℝ)
    (zs : ℕ → Fin 3 → ℝ) (draws : ℕ → StepDraw) (selections : List ℕ) :
    (∀ q ∈ (RBPF.init pr mumu sigmasq beta kw kv theta (t0 :: t1 :: ts)
        (p0 :: p1 :: ps) N gsamps epsilon zs).particles, q.logweight = 0) ∧
    (RBPF.init pr mumu sigmasq beta kw kv theta (t0 :: t1 :: ts)
        (p0 :: p1 :: ps) N gsamps epsilon zs).particles.length = N ∧
    ((RBPF.init pr mumu sigmasq beta kw kv theta (t0 :: t1 :: ts)
        (p0 :: p1 :: ps) N gsamps epsilon zs).particles.map
      (fun q => Real.exp q.logweight)).sum = (N : ℝ) ∧
    ((RBPF.init pr mumu sigmasq beta kw kv theta (t0 :: t1 :: ts)
        (p0 :: p1 :: ps) N gsamps epsilon zs).run_filter_step pr draws
        selections).log_marginal_likelihood =
      Real.log ((mapStream
        (fun q d => Real.exp (LangevinParticle.step_log_ped pr q (p1 - p0) 0
          (t1 - t0) d))
        (RBPF.init pr mumu sigmasq beta kw kv theta (t0 :: t1 :: ts)
          (p0 :: p1 :: ps) N gsamps epsilon zs).particles draws).sum) := by
  have hparts : (RBPF.init pr mumu sigmasq beta kw kv theta (t0 :: t1 :: ts)
      (p0 :: p1 :: ps) N gsamps epsilon zs).particles =
      (List.range N).map (fun i =>
        LangevinParticle.init pr mumu sigmasq beta kw kv theta gsamps (zs i)) := rfl
  have ha : ∀ q ∈ (RBPF.init pr mumu sigmasq beta kw kv theta (t0 :: t1 :: ts)
      (p0 :: p1 :: ps) N gsamps epsilon zs).particles, q.logweight = 0 := by
    intro q hq
    rw [hparts] at hq
    rcases List.mem_map.mp hq with ⟨i, _, rfl⟩
    rfl
  have hb : (RBPF.init pr mumu sigmasq beta kw kv theta (t0 :: t1 :: ts)
      (p0 :: p1 :: ps) N gsamps epsilon zs).particles.length = N := by
    rw [hparts, List.length_map, List.length_range]
  refine ⟨ha, hb, ?_, ?_⟩
  · rw [sum_map_const_one _ _ (fun q hq => by rw [ha q hq, Real.exp_zero]), hb]
  · have hgen := first_increment_log_sum pr
      (RBPF.init pr mumu sigmasq beta kw kv theta (t0 :: t1 :: ts)
        (p0 :: p1 :: ps) N gsamps epsilon zs)
      draws selections (p1 - p0) (t1 - t0)
      (ps.map (fun p => p - p0)) (ts.map (fun t => t - t0))
      ha rfl rfl rfl
    have hct : (RBPF.init pr mumu sigmasq beta kw kv theta (t0 :: t1 :: ts)
        (p0 :: p1 :: ps) N gsamps epsilon zs).current_time = 0 := sub_self t0
    rw [hct] at hgen
    exact hgen

theorem initial_weights_zero_first_increment_log_sum_witness :
    (∀ q ∈ (RBPF.init providers0 0 0 0 0 0 0 ((0 : ℝ) :: 1 :: [])
        ((0 : ℝ) :: 0 :: []) 1 0 1 (fun _ _ => 0)).particles,
      q.logweight = 0) ∧
    (RBPF.init providers0 0 0 0 0 0 0 ((0 : ℝ) :: 1 :: []) ((0 : ℝ) :: 0 :: [])
        1 0 1 (fun _ _ => 0)).particles.length = 1 ∧
    ((RBPF.init providers0 0 0 0 0 0 0 ((0 : ℝ) :: 1 :: []) ((0 : ℝ) :: 0 :: [])
        1 0 1 (fun _ _ => 0)).particles.map
      (fun q => Real.exp q.logweight)).sum = ((1 : ℕ) : ℝ) ∧
    ((RBPF.init providers0 0 0 0 0 0 0 ((0 : ℝ) :: 1 :: []) ((0 : ℝ) :: 0 :: [])
        1 0 1 (fun _ _ => 0)).run_filter_step providers0 draws0
        [1]).log_marginal_likelihood =
      Real.log ((mapStream
        (fun q d => Real.exp (LangevinParticle.step_log_ped providers0 q
          ((0 : ℝ) - 0) 0 ((1 : ℝ) - 0) d))
        (RBPF.init providers0 0 0 0 0 0 0 ((0 : ℝ) :: 1 :: [])
          ((0 : ℝ) :: 0 :: []) 1 0 1 (fun _ _ => 0)).particles draws0).sum) :=
  initial_weights_zero_first_increment_log_sum providers0 0 0 0 0 0 0 0
    0 1 0 0 [] [] 1 1 (fun _ _ => 0) draws0 [1]

/-- C7 (counterexample): the claim that invalid construction parameters raise
ValidationError is false: no validation exists anywhere in the source.  With
c = beta = rate = -1 and samps = 0 the simulator returns the empty path
normally; with N = 0, epsilon = 2 (outside (0,1)) and a one-point
observation series the filter constructs normally with an empty population,
and run_filter returns marginal likelihood 0 instead of failing. -/
theorem no_validation_error_on_invalid_params :
    gen_gamma_process (-1) (-1) (-1) 0 1 [] [] [] = ([], []) ∧
    (RBPF.init providers0 0 0 0 0 0 0 [5] [7] 0 0 2 (fun _ _ => 0)).particles = [] ∧
    ((RBPF.init providers0 0 0 0 0 0 0 [5] [7] 0 0 2 (fun _ _ => 0)).run_filter
      providers0 (fun _ => (draws0, []))).log_marginal_likelihood = 0 := by
  refine ⟨rfl, rfl, rfl⟩

/-- C7 (amended): neither the subordinator simulator nor the filter
constructor validates its parameters; both are total.  For every parameter
value, valid or not, the simulator returns a well-formed path whose times and
cumulative values have equal length, and filter construction returns exactly
N particles, each with log-weight 0. -/
theorem construction_total_without_validation (c beta rate : ℝ) (samps : ℕ)
    (maxT : ℝ) (gaps us uts : List ℝ) (pr : Providers)
    (mumu sigmasq beta2 kw kv theta : ℝ) (times prices : List ℝ)
    (N gsamps : ℕ) (epsilon : ℝ) (zs : ℕ → Fin 3 → ℝ) :
    (gen_gamma_process c beta rate samps maxT gaps us uts).1.length =
      (gen_gamma_process c beta rate samps maxT gaps us uts).2.length ∧
    (RBPF.init pr mumu sigmasq beta2 kw kv theta times prices N gsamps
      epsilon zs).particles.length = N ∧
    ∀ q ∈ (RBPF.init pr mumu sigmasq beta2 kw kv theta times prices N gsamps
      epsilon zs).particles, q.logweight = 0 := by
  have hlen : ∀ (P : List (ℝ × ℝ)),
      (P.map Prod.fst).length = (cumsum (P.map Prod.snd)).length := by
    intro P
    rw [List.length_map]
    show P.length = (cumsumFrom 0 (P.map Prod.snd)).length
    rw [cumsumFrom_length, List.length_map]
  have hparts : (RBPF.init pr mumu sigmasq beta2 kw kv theta times prices N
      gsamps epsilon zs).particles =
      (List.range N).map (fun i =>
        LangevinParticle.init pr mumu sigmasq beta2 kw kv theta gsamps (zs i)) := rfl
  refine ⟨hlen _, ?_, ?_⟩
  · rw [hparts, List.length_map, List.length_range]
  · intro q hq
    rw [hparts] at hq
    rcases List.mem_map.mp hq with ⟨i, _, rfl⟩
    rfl

theorem construction_total_without_validation_witness :
    (gen_gamma_process (-1) (-1) (-1) 0 1 [] [] []).1.length =
      (gen_gamma_process (-1) (-1) (-1) 0 1 [] [] []).2.length ∧
    (RBPF.init providers0 0 0 0 0 0 0 [5] [7] 0 0 2
      (fun _ _ => 0)).particles.length = 0 ∧
    ∀ q ∈ (RBPF.init providers0 0 0 0 0 0 0 [5] [7] 0 0 2
      (fun _ _ => 0)).particles, q.logweight = 0 :=
  construction_total_without_validation (-1) (-1) (-1) 0 1 [] [] []
    providers0 0 0 0 0 0 0 [5] [7] 0 0 2 (fun _ _ => 0)
